import Mathlib

/-!
Verification of the SSZ codec core (Go package `ssz`, files `ssz.go` and
`generics.go`) against its natural-language specification.

Bytes are modelled as natural numbers (values below 256 on well-formed
streams); a byte source (`io.Reader`) is a `List Nat` consumed from the
front; reading returns the remaining stream, mirroring the reader's cursor.
Machine integers (`uint32`, Go `int`) are modelled as `Nat` — all the
quantities involved (lengths, offsets, counts) are non-negative in the code.
Fallible operations return an `Except`-style result paired with the
remaining stream (Go returns `(value, error)` while the reader advances as
a side effect).
-/

namespace SSZ

/-- The error taxonomy of the codec (spec §7).  Each constructor carries the
data the corresponding Go error message interpolates. -/
inductive Err : Type where
  /-- `ErrShortOffset`: fewer than 4 bytes remain where an offset was
  expected; carries the number of bytes available. -/
  | shortOffset (available : Nat)
  /-- `ErrBadCouterOffset`: malformed counter offset; carries the decoded
  first-offset value. -/
  | badCounterOffset (length : Nat)
  /-- `ErrMaxItemsExceeded`: carries the kind string, the actual item count
  and the schema-declared cap, as interpolated by `DecodeSlice`. -/
  | maxItemsExceeded (kind : String) (items : Nat) (maxitems : Nat)
  /-- `OffsetOrderingViolation`: a later offset is smaller than an earlier
  one; carries the previous and the offending offset. -/
  | offsetOrderingViolation (prev cur : Nat)
  /-- An `io` read error (e.g. `io.ReadFull` hitting end of stream). -/
  | readFailure
deriving DecidableEq, Repr

/-- `binary.LittleEndian.Uint32`: compose four bytes little-endian. -/
def le32v (b0 b1 b2 b3 : Nat) : Nat :=
  b0 + 256 * b1 + 65536 * b2 + 16777216 * b3

/-- Serialize a value below `2^32` as four little-endian bytes. -/
def le32enc (v : Nat) : List Nat :=
  [v % 256, v / 256 % 256, v / 65536 % 256, v / 16777216 % 256]

/-- `decodeSliceLength` (ssz.go lines 87–106): decode how many dynamic items
occur in the stream, capped to the stream length `limit`.  Returns the item
count (or the error) together with the remaining stream; `io.ReadFull`
consumes everything available when fewer than 4 bytes remain. -/
def decodeSliceLength (r : List Nat) (limit : Nat) :
    Except Err Nat × List Nat :=
  -- If there are no items at all in the list, return 0
  if limit = 0 then (.ok 0, r)
  -- Ensure there's at least one offset worth of data
  else if limit < 4 then (.error (.shortOffset limit), r)
  -- Decode the offset and convert it into a length
  else match r with
    | b0 :: b1 :: b2 :: b3 :: rest =>
        let length := le32v b0 b1 b2 b3
        if 0 < length &&& 0xff then (.error (.badCounterOffset length), rest)
        else (.ok (length >>> 2), rest)
    | _ => (.error .readFailure, [])

/-- Modelled from the spec: the offset-reading loop of `DecodeSlice`, whose
body is missing from the source draft (ssz.go lines 115–127 stop right
after allocating the offsets slice).  Spec §4.3: “read the remaining
`items − 1` offset slots (the first was already consumed) … each successive
offset must be ≥ the previous (non-decreasing) — a decrease indicates
corruption and fails with an ordering error.”  Reads `n` 4-byte
little-endian offsets, each compared against the running predecessor
`prev`; returns the offsets read and the remaining stream. -/
def readOffsets (n : Nat) (prev : Nat) (r : List Nat) :
    Except Err (List Nat) × List Nat :=
  match n, r with
  | 0, r => (.ok [], r)
  | n + 1, b0 :: b1 :: b2 :: b3 :: rest =>
      let off := le32v b0 b1 b2 b3
      if off < prev then (.error (.offsetOrderingViolation prev off), rest)
      else
        match readOffsets n off rest with
        | (.ok offs, r2) => (.ok (off :: offs), r2)
        | (.error e, r2) => (.error e, r2)
  | _ + 1, _ => (.error .readFailure, [])

/-- `DecodeSlice` (ssz.go lines 115–127): decode (validate) a slice of
dynamic objects.  The item-count parsing and the max-items check are from
the source; the source draft ends after allocating the offsets slice, so
the remainder — reading the `items − 1` remaining offsets with the
non-decreasing check — is modelled from the spec via `readOffsets`, seeded
with the first offset `4 * items` already consumed by `decodeSliceLength`.
Returns the complete offset table and the remaining stream. -/
def DecodeSlice (r : List Nat) (kind : String) (limit maxitems : Nat) :
    Except Err (List Nat) × List Nat :=
  -- Parse the item count and make sure it's within limits
  match decodeSliceLength r limit with
  | (.error e, r1) => (.error e, r1)
  | (.ok items, r1) =>
    if items > maxitems then
      (.error (.maxItemsExceeded kind items maxitems), r1)
    else
      match readOffsets (items - 1) (4 * items) r1 with
      | (.error e, r2) => (.error e, r2)
      | (.ok offs, r2) => (.ok (4 * items :: offs), r2)

/-- A sequence of offsets is in order when, starting from the already
consumed predecessor `prev`, every successive offset is ≥ the previous one
(spec §4.3: non-decreasing). -/
def offsetsOrdered (prev : Nat) : List Nat → Bool
  | [] => true
  | o :: os => decide (prev ≤ o) && offsetsOrdered o os

/-- Compose eight bytes little-endian (`binary.LittleEndian.Uint64`). -/
def le64v (b0 b1 b2 b3 b4 b5 b6 b7 : Nat) : Nat :=
  b0 + 256 * b1 + 65536 * b2 + 16777216 * b3 + 4294967296 * b4
    + 1099511627776 * b5 + 281474976710656 * b6 + 72057594037927936 * b7

/-- Serialize a value below `2^64` as eight little-endian bytes. -/
def le64enc (v : Nat) : List Nat :=
  [v % 256, v / 256 % 256, v / 65536 % 256, v / 16777216 % 256,
   v / 4294967296 % 256, v / 1099511627776 % 256,
   v / 281474976710656 % 256, v / 72057594037927936 % 256]

/-- Modelled from the spec: the supported object universe for the
round-trip property.  The per-type `EncodeSSZ`/`DecodeSSZ` capability
implementations are absent from this slice of the source (the `Object`
interface only declares them), so the universe is built from the spec's
wire-format section (§6): little-endian fixed-width scalars, fixed-size
byte blobs, dynamic byte lists, and dynamic lists of dynamic byte lists
(the offset-table protocol of §4.3). -/
inductive Value : Type where
  /-- A `uint32` scalar (static). -/
  | u32 (v : Nat)
  /-- A `uint64` scalar (static). -/
  | u64 (v : Nat)
  /-- A fixed-size byte blob of length `n` (static). -/
  | bytesN (n : Nat) (bs : List Nat)
  /-- A dynamic byte list. -/
  | byteList (bs : List Nat)
  /-- A dynamic list of dynamic byte lists, wire-encoded through the
  offset-table protocol. -/
  | byteListList (xss : List (List Nat))
deriving DecidableEq, Repr

/-- The schema (static type information) of a supported object; decoding
is driven by the schema, which in Go is the concrete type whose
`DecodeSSZ` runs. -/
inductive Schema : Type where
  | u32
  | u64
  | bytesN (n : Nat)
  | byteList
  | byteListList
deriving DecidableEq, Repr

/-- The schema a value instantiates. -/
def schemaOf : Value → Schema
  | .u32 _ => .u32
  | .u64 _ => .u64
  | .bytesN n _ => .bytesN n
  | .byteList _ => .byteList
  | .byteListList _ => .byteListList

/-- Well-formedness of a supported value: scalars fit their width, fixed
blobs have their declared length, and a dynamic list's whole region
(offset table plus payloads) fits the 4-byte offset space. -/
def wf : Value → Bool
  | .u32 v => decide (v < 2 ^ 32)
  | .u64 v => decide (v < 2 ^ 64)
  | .bytesN n bs => bs.length == n
  | .byteList _ => true
  | .byteListList xss =>
      decide (4 * xss.length + xss.flatten.length < 2 ^ 32)

/-- Modelled from the spec (§3, §6): the offset table of a list of dynamic
elements — one 4-byte slot per element, each offset the byte position where
that element's payload begins, counted from the start of the list region;
the first payload begins right after the table, so the first offset is the
table's byte size. -/
def offsetsFrom (base : Nat) : List (List Nat) → List Nat
  | [] => []
  | bs :: xss => base :: offsetsFrom (base + bs.length) xss

/-- Modelled from the spec (§6 wire-format invariants): the encode
capability of each supported object. -/
def encode : Value → List Nat
  | .u32 v => le32enc v
  | .u64 v => le64enc v
  | .bytesN _ bs => bs
  | .byteList bs => bs
  | .byteListList xss =>
      (offsetsFrom (4 * xss.length) xss).flatMap le32enc ++ xss.flatten

/-- The byte span `[start, stop)` of a list region (spec §4.3: element `i`
is decoded from `[offset[i], offset[i+1])`). -/
def sliceSpan (region : List Nat) (start stop : Nat) : List Nat :=
  (region.drop start).take (stop - start)

/-- Cut a list region into the element payloads delimited by the complete
offset table; the last element's span ends at the region's end (spec §4.3). -/
def slicePayloads (region : List Nat) : List Nat → List (List Nat)
  | [] => []
  | [o] => [sliceSpan region o region.length]
  | o1 :: o2 :: offs =>
      sliceSpan region o1 o2 :: slicePayloads region (o2 :: offs)

/-- Modelled from the spec (§4.3 decode-slice, with the spec's
divisible-by-4 rule for the first offset): decode a whole list region into
its dynamic byte-list elements — derive the element count from the first
offset, read the remaining offsets with the non-decreasing check, then cut
each element's span. -/
def decodeListRegion (region : List Nat) : Except Err (List (List Nat)) :=
  if region.length = 0 then .ok []
  else if region.length < 4 then .error (.shortOffset region.length)
  else match region with
    | b0 :: b1 :: b2 :: b3 :: rest =>
        let firstOffset := le32v b0 b1 b2 b3
        if firstOffset % 4 ≠ 0 then .error (.badCounterOffset firstOffset)
        else
          let items := firstOffset / 4
          if items = 0 then .ok []
          else
            match readOffsets (items - 1) firstOffset rest with
            | (.error e, _) => .error e
            | (.ok offs, _) =>
                .ok (slicePayloads region (firstOffset :: offs))
    | _ => .error .readFailure

/-- Modelled from the spec: the decode capability per schema.  `size` is
the caller-supplied byte budget (spec §4.4); dynamic decoders use it as
their region limit, static decoders read their compile-time-known amount
(spec §4.1). -/
def decode (s : Schema) (r : List Nat) (size : Nat) : Except Err Value :=
  match s with
  | .u32 =>
      match r with
      | b0 :: b1 :: b2 :: b3 :: _ => .ok (.u32 (le32v b0 b1 b2 b3))
      | _ => .error .readFailure
  | .u64 =>
      match r with
      | b0 :: b1 :: b2 :: b3 :: b4 :: b5 :: b6 :: b7 :: _ =>
          .ok (.u64 (le64v b0 b1 b2 b3 b4 b5 b6 b7))
      | _ => .error .readFailure
  | .bytesN n =>
      if n ≤ r.length then .ok (.bytesN n (r.take n))
      else .error .readFailure
  | .byteList =>
      if size ≤ r.length then .ok (.byteList (r.take size))
      else .error .readFailure
  | .byteListList =>
      if size ≤ r.length then
        (decodeListRegion (r.take size)).map .byteListList
      else .error .readFailure

/-- The SSZ `Encoder` context: a byte sink and the error slot.  The struct
declaration itself is not in this source slice; its fields are those the
source assigns at ssz.go line 62 (`enc.out, enc.err = w, nil`), with the
sink modelled as the list of bytes written so far. -/
structure Encoder : Type where
  out : List Nat
  err : Option Err
deriving DecidableEq, Repr

/-- The SSZ `Decoder` context: a byte source, the remaining byte budget,
and the error slot — the fields the source assigns at ssz.go line 72
(`dec.in, dec.length, dec.err = r, size, nil`).  `in` is a reserved word
in Lean, so that field is named `input` here. -/
structure Decoder : Type where
  input : List Nat
  length : Nat
  err : Option Err
deriving DecidableEq, Repr

/-- Modelled from the spec (§4.2): one primitive step of an encode run —
either write some bytes to the sink, or hit an error (a failing sink
write or a codec error, abstracted as the error value it produces). -/
inductive EncOp : Type where
  | write (data : List Nat)
  | fail (e : Err)
deriving DecidableEq, Repr

/-- Modelled from the spec (§4.2 side effect, §7 propagation policy):
apply one encode step.  Every operation on a context whose error slot is
set is a no-op, and an error only lands in an empty slot — first error
wins. -/
def encStep (enc : Encoder) : EncOp → Encoder
  | .write data =>
      if enc.err.isSome then enc else { enc with out := enc.out ++ data }
  | .fail e =>
      if enc.err.isSome then enc else { enc with err := some e }

/-- An encode run is a sequence of primitive steps driven through the
shared context. -/
def runEncOps (enc : Encoder) (ops : List EncOp) : Encoder :=
  ops.foldl encStep enc

/-- Modelled from the spec (§4.3): one primitive step of a decode run —
consume bytes from the source within the remaining budget, or hit an
error. -/
inductive DecOp : Type where
  | read (n : Nat)
  | fail (e : Err)
deriving DecidableEq, Repr

/-- Modelled from the spec (§4.3 state machine, §7): apply one decode
step.  A read on an errored context is a no-op; reading past the budget or
past the end of the source latches a read failure; otherwise the bytes are
consumed and the budget decremented. -/
def decStep (dec : Decoder) : DecOp → Decoder
  | .read n =>
      if dec.err.isSome then dec
      else if dec.length < n || dec.input.length < n then
        { dec with err := some .readFailure }
      else
        { dec with input := dec.input.drop n, length := dec.length - n }
  | .fail e =>
      if dec.err.isSome then dec else { dec with err := some e }

/-- A decode run is a sequence of primitive steps driven through the
shared context. -/
def runDecOps (dec : Decoder) (ops : List DecOp) : Decoder :=
  ops.foldl decStep dec

/-- `encoderPool.Get` (ssz.go lines 43–47, 59): take a recycled context
off the free list, or have `New` produce a zero-valued `new(Encoder)` when
the pool is empty; returns the acquired context and the rest of the pool. -/
def encoderPoolGet (pool : List Encoder) : Encoder × List Encoder :=
  match pool with
  | [] => (⟨[], none⟩, [])
  | c :: rest => (c, rest)

/-- `decoderPool.Get` (ssz.go lines 51–55, 69): as `encoderPoolGet`, with
`new(Decoder)` as the zero value. -/
def decoderPoolGet (pool : List Decoder) : Decoder × List Decoder :=
  match pool with
  | [] => (⟨[], 0, none⟩, [])
  | c :: rest => (c, rest)

/-- `Encode` (ssz.go lines 58–65): take an encoder from the pool, bind the
sink and clear the error slot (line 62), run the object's `EncodeSSZ`
capability — an arbitrary function on the context — and, via the deferred
`Put`, return the finished context to the pool unconditionally.  The
result is the captured error together with the pool after the `Put`. -/
def Encode (pool : List Encoder) (w : List Nat)
    (encodeSSZ : Encoder → Encoder) : Option Err × List Encoder :=
  let (enc, rest) := encoderPoolGet pool
  let enc1 := { enc with out := w, err := none }
  let enc2 := encodeSSZ enc1
  (enc2.err, enc2 :: rest)

/-- `Decode` (ssz.go lines 68–75): take a decoder from the pool, bind the
source, the byte budget `size` and clear the error slot (line 72), run the
object's `DecodeSSZ` capability, release unconditionally, and return the
captured error. -/
def Decode (pool : List Decoder) (r : List Nat) (size : Nat)
    (decodeSSZ : Decoder → Decoder) : Option Err × List Decoder :=
  let (dec, rest) := decoderPoolGet pool
  let dec1 := { dec with input := r, length := size, err := none }
  let dec2 := decodeSSZ dec1
  (dec2.err, dec2 :: rest)

end SSZ

namespace SSZ

/-- **C1.** The code masks the first offset with `0xff`, not `0x3`: the
concrete stream `[4,0,0,0]` decodes the first offset `4`, which is evenly
divisible by 4, yet `decodeSliceLength` rejects it with the
malformed-counter-offset error instead of returning element count `1` —
contradicting the claim, the spec, and the function's own doc comment
(“dividing it by 4 … derive the number of items”). -/
theorem decodeSliceLength_rejects_offset_4 :
    decodeSliceLength [4, 0, 0, 0] 4 = (.error (.badCounterOffset 4), []) := by
  rfl

/-- **C5.** With `limit = 0`, `decodeSliceLength` returns count 0, no error,
and leaves the source untouched, for every byte source. -/
theorem decodeSliceLength_limit_zero (r : List Nat) :
    decodeSliceLength r 0 = (.ok 0, r) := by
  rfl

/-- **C6.** With `0 < limit < 4`, `decodeSliceLength` fails with the
short-offset error (carrying the available byte count), for every source. -/
theorem decodeSliceLength_short_limit (r : List Nat) (limit : Nat)
    (h0 : 0 < limit) (h4 : limit < 4) :
    decodeSliceLength r limit = (.error (.shortOffset limit), r) := by
  unfold decodeSliceLength
  rw [if_neg (by omega), if_pos h4]

/-- Witness for C6 at `limit = 2` on a concrete source. -/
theorem decodeSliceLength_short_limit_witness :
    decodeSliceLength [9, 9, 9] 2 = (.error (.shortOffset 2), [9, 9, 9]) :=
  decodeSliceLength_short_limit [9, 9, 9] 2 (by decide) (by decide)

/-- **C10.** With `limit ≥ 4` and the first four bytes little-endian zero,
`decodeSliceLength` succeeds with element count 0 and consumes exactly those
four bytes. -/
theorem decodeSliceLength_zero_offset (b0 b1 b2 b3 : Nat) (rest : List Nat)
    (limit : Nat) (hlim : 4 ≤ limit) (hzero : le32v b0 b1 b2 b3 = 0) :
    decodeSliceLength (b0 :: b1 :: b2 :: b3 :: rest) limit = (.ok 0, rest) := by
  unfold decodeSliceLength
  rw [if_neg (by omega), if_neg (by omega)]
  simp only [hzero]
  rfl

/-- Witness for C10 at `limit = 7` on a concrete source. -/
theorem decodeSliceLength_zero_offset_witness :
    decodeSliceLength [0, 0, 0, 0, 55, 66] 7 = (.ok 0, [55, 66]) :=
  decodeSliceLength_zero_offset 0 0 0 0 [55, 66] 7 (by decide) (by decide)

/-- Little-endian serialization followed by `binary.LittleEndian.Uint32`
recomposition is the identity below `2^32`. -/
theorem le32v_le32enc (v : Nat) (h : v < 2 ^ 32) :
    le32v (v % 256) (v / 256 % 256) (v / 65536 % 256) (v / 16777216 % 256)
      = v := by
  unfold le32v
  omega

/-- On a source with at least one full offset and `limit ≥ 4`,
`decodeSliceLength` reduces to the counter-offset analysis of the
little-endian value of the first four bytes. -/
theorem decodeSliceLength_cons (b0 b1 b2 b3 : Nat) (rest : List Nat)
    (limit : Nat) (hlim : 4 ≤ limit) :
    decodeSliceLength (b0 :: b1 :: b2 :: b3 :: rest) limit =
      if 0 < le32v b0 b1 b2 b3 &&& 0xff then
        (.error (.badCounterOffset (le32v b0 b1 b2 b3)), rest)
      else (.ok (le32v b0 b1 b2 b3 >>> 2), rest) := by
  unfold decodeSliceLength
  rw [if_neg (by omega), if_neg (by omega)]

/-- When the item count parses successfully, `DecodeSlice` reduces to the
max-items check followed by the offset-reading loop. -/
theorem DecodeSlice_eq_of_length_ok (r : List Nat) (kind : String)
    (limit maxitems items : Nat) (r1 : List Nat)
    (hlen : decodeSliceLength r limit = (.ok items, r1)) :
    DecodeSlice r kind limit maxitems =
      if items > maxitems then
        (.error (.maxItemsExceeded kind items maxitems), r1)
      else
        match readOffsets (items - 1) (4 * items) r1 with
        | (.error e, r2) => (.error e, r2)
        | (.ok offs, r2) => (.ok (4 * items :: offs), r2) := by
  unfold DecodeSlice
  rw [hlen]

/-- If the sequence `prev, o₁, …, oₙ` of offsets laid out little-endian on
the stream is not non-decreasing, the offset-reading loop fails with an
offset-ordering-violation error. -/
theorem readOffsets_not_ordered (offsets : List Nat) :
    ∀ (prev : Nat) (rest : List Nat),
      (∀ o ∈ offsets, o < 2 ^ 32) →
      offsetsOrdered prev offsets = false →
      ∃ p c,
        (readOffsets offsets.length prev (offsets.flatMap le32enc ++ rest)).1
          = .error (.offsetOrderingViolation p c) := by
  induction offsets with
  | nil =>
      intro prev rest _ hbad
      simp [offsetsOrdered] at hbad
  | cons o os ih =>
      intro prev rest hoff hbad
      have hlt : o < 2 ^ 32 := hoff o (List.mem_cons_self o os)
      have hstream : (o :: os).flatMap le32enc ++ rest
          = o % 256 :: (o / 256 % 256) :: (o / 65536 % 256)
              :: (o / 16777216 % 256) :: (os.flatMap le32enc ++ rest) := by
        simp [le32enc]
      rw [List.length_cons, hstream]
      by_cases hcmp : o < prev
      · exact ⟨prev, o, by simp [readOffsets, le32v_le32enc o hlt, hcmp]⟩
      · have hbad' : offsetsOrdered o os = false := by
          have hle : prev ≤ o := Nat.le_of_not_lt hcmp
          simpa [offsetsOrdered, hle] using hbad
        obtain ⟨p, c, hpc⟩ :=
          ih o rest (fun x hx => hoff x (List.mem_cons_of_mem o hx)) hbad'
        refine ⟨p, c, ?_⟩
        simp only [readOffsets, le32v_le32enc o hlt, if_neg hcmp]
        rcases hro : readOffsets os.length o (os.flatMap le32enc ++ rest)
          with ⟨res, r2⟩
        rw [hro] at hpc
        cases res with
        | ok offs => exact absurd hpc (by simp)
        | error e => simpa using hpc

/-- **C3.** Whenever `decodeSliceLength` yields an element count above the
schema-declared cap, `DecodeSlice` fails with the maximum-items-exceeded
error naming the kind, the actual count and the cap, and consumes no byte
beyond those `decodeSliceLength` used (the remaining stream is exactly the
one `decodeSliceLength` left): no element or offset decoding happens. -/
theorem DecodeSlice_max_items (r : List Nat) (kind : String)
    (limit maxitems items : Nat) (r1 : List Nat)
    (hlen : decodeSliceLength r limit = (.ok items, r1))
    (hgt : maxitems < items) :
    DecodeSlice r kind limit maxitems
      = (.error (.maxItemsExceeded kind items maxitems), r1) := by
  rw [DecodeSlice_eq_of_length_ok r kind limit maxitems items r1 hlen,
    if_pos hgt]

/-- Witness for C3: first offset `256` gives 64 items against a cap of 3. -/
theorem DecodeSlice_max_items_witness :
    decodeSliceLength [0, 1, 0, 0] 4 = (.ok 64, []) ∧
    DecodeSlice [0, 1, 0, 0] "blob" 4 3
      = (.error (.maxItemsExceeded "blob" 64 3), []) :=
  ⟨rfl, DecodeSlice_max_items [0, 1, 0, 0] "blob" 4 3 64 [] rfl (by decide)⟩

/-- **C4.** Whenever the offset table laid out on the stream contains a
later offset smaller than an earlier one (the offset sequence starting at
the first offset `4 · items` is not non-decreasing), `DecodeSlice` fails
with the offset-ordering-violation error — provided the stream reaches the
offset-reading phase at all, i.e. the first offset passes the counter-
offset mask, the count is within the cap, and every offset fits 4 bytes. -/
theorem DecodeSlice_offset_ordering (kind : String)
    (offsets rest : List Nat) (maxitems limit : Nat)
    (hlim : 4 ≤ limit)
    (hn : offsets.length + 1 ≤ maxitems)
    (hdiv : 4 * (offsets.length + 1) &&& 0xff = 0)
    (hfit : 4 * (offsets.length + 1) < 2 ^ 32)
    (hoff : ∀ o ∈ offsets, o < 2 ^ 32)
    (hbad : offsetsOrdered (4 * (offsets.length + 1)) offsets = false) :
    ∃ p c,
      (DecodeSlice
          (le32enc (4 * (offsets.length + 1))
            ++ (offsets.flatMap le32enc ++ rest)) kind limit maxitems).1
        = .error (.offsetOrderingViolation p c) := by
  obtain ⟨p, c, hpc⟩ :=
    readOffsets_not_ordered offsets (4 * (offsets.length + 1)) rest hoff hbad
  refine ⟨p, c, ?_⟩
  have hdsl : decodeSliceLength
      (le32enc (4 * (offsets.length + 1))
        ++ (offsets.flatMap le32enc ++ rest)) limit
      = (.ok (offsets.length + 1), offsets.flatMap le32enc ++ rest) := by
    have hcons : le32enc (4 * (offsets.length + 1))
        ++ (offsets.flatMap le32enc ++ rest)
        = (4 * (offsets.length + 1)) % 256
            :: ((4 * (offsets.length + 1)) / 256 % 256)
            :: ((4 * (offsets.length + 1)) / 65536 % 256)
            :: ((4 * (offsets.length + 1)) / 16777216 % 256)
            :: (offsets.flatMap le32enc ++ rest) := by
      simp [le32enc]
    rw [hcons, decodeSliceLength_cons _ _ _ _ _ _ hlim,
      le32v_le32enc _ hfit, hdiv]
    have hsh : (4 * (offsets.length + 1)) >>> 2 = offsets.length + 1 := by
      rw [Nat.shiftRight_eq_div_pow]
      omega
    simp [hsh]
  rw [DecodeSlice_eq_of_length_ok _ kind limit maxitems _ _ hdsl,
    if_neg (by omega)]
  have hsub : offsets.length + 1 - 1 = offsets.length := rfl
  rw [hsub]
  rcases hro : readOffsets offsets.length (4 * (offsets.length + 1))
      (offsets.flatMap le32enc ++ rest) with ⟨res, r2⟩
  rw [hro] at hpc
  cases res with
  | ok offs => exact absurd hpc (by simp)
  | error e => simpa using hpc

/-- Eight-byte little-endian round-trip below `2^64`. -/
theorem le64v_le64enc (v : Nat) (h : v < 2 ^ 64) :
    le64v (v % 256) (v / 256 % 256) (v / 65536 % 256) (v / 16777216 % 256)
      (v / 4294967296 % 256) (v / 1099511627776 % 256)
      (v / 281474976710656 % 256) (v / 72057594037927936 % 256) = v := by
  unfold le64v
  omega

/-- The offset table has one slot per element. -/
theorem length_offsetsFrom (base : Nat) (xss : List (List Nat)) :
    (offsetsFrom base xss).length = xss.length := by
  induction xss generalizing base with
  | nil => rfl
  | cons bs xss ih => simp [offsetsFrom, ih]

/-- Serializing a table of offsets occupies 4 bytes per entry. -/
theorem length_flatMap_le32enc (l : List Nat) :
    (l.flatMap le32enc).length = 4 * l.length := by
  induction l with
  | nil => rfl
  | cons a t ih =>
      simp [le32enc, ih]
      omega

/-- An offset table built from consecutive payload positions is
non-decreasing from any predecessor at or below its base. -/
theorem offsetsOrdered_offsetsFrom (xss : List (List Nat)) :
    ∀ prev base : Nat, prev ≤ base →
      offsetsOrdered prev (offsetsFrom base xss) = true := by
  induction xss with
  | nil => intro prev base _; rfl
  | cons bs xss ih =>
      intro prev base hle
      simp only [offsetsFrom, offsetsOrdered, Bool.and_eq_true,
        decide_eq_true_iff]
      exact ⟨hle, ih base (base + bs.length) (Nat.le_add_right _ _)⟩

/-- Every offset in the table lies between the base and the end of the
payload region. -/
theorem offsetsFrom_le (xss : List (List Nat)) :
    ∀ base : Nat, ∀ o ∈ offsetsFrom base xss,
      o ≤ base + xss.flatten.length := by
  induction xss with
  | nil => intro base o ho; simp [offsetsFrom] at ho
  | cons bs xss ih =>
      intro base o ho
      simp only [offsetsFrom, List.mem_cons] at ho
      rcases ho with rfl | ho
      · simp
      · have := ih (base + bs.length) o ho
        simp only [List.flatten_cons, List.length_append]
        omega

/-- Reading back a serialized, in-order offset table recovers it and
leaves the stream right after it. -/
theorem readOffsets_encoded (offs : List Nat) :
    ∀ (n prev : Nat) (rest : List Nat), offs.length = n →
      (∀ o ∈ offs, o < 2 ^ 32) →
      offsetsOrdered prev offs = true →
      readOffsets n prev (offs.flatMap le32enc ++ rest) = (.ok offs, rest) := by
  induction offs with
  | nil =>
      intro n prev rest hn _ _
      subst hn
      rfl
  | cons o os ih =>
      intro n prev rest hn hfit hord
      subst hn
      have hlt : o < 2 ^ 32 := hfit o (List.mem_cons_self o os)
      simp only [offsetsOrdered, Bool.and_eq_true, decide_eq_true_iff] at hord
      have hstream : (o :: os).flatMap le32enc ++ rest
          = o % 256 :: (o / 256 % 256) :: (o / 65536 % 256)
              :: (o / 16777216 % 256) :: (os.flatMap le32enc ++ rest) := by
        simp [le32enc]
      rw [List.length_cons, hstream]
      simp only [readOffsets, le32v_le32enc o hlt,
        if_neg (Nat.not_lt.mpr hord.1)]
      rw [ih os.length o rest rfl
        (fun x hx => hfit x (List.mem_cons_of_mem o hx)) hord.2]

/-- Cutting a region made of an arbitrary prefix followed by concatenated
payloads along the offset table anchored at the prefix's length recovers
the payloads. -/
theorem slicePayloads_offsetsFrom (xss : List (List Nat)) :
    ∀ pre : List Nat, xss ≠ [] →
      slicePayloads (pre ++ xss.flatten) (offsetsFrom pre.length xss)
        = xss := by
  induction xss with
  | nil => intro pre h; exact absurd rfl h
  | cons x xs ih =>
      intro pre _
      cases xs with
      | nil =>
          simp only [offsetsFrom, List.flatten_cons, List.flatten_nil,
            List.append_nil, slicePayloads, sliceSpan, List.drop_left,
            List.length_append]
          rw [Nat.add_sub_cancel_left, List.take_length]
      | cons y ys =>
          have hfirst : sliceSpan (pre ++ (x :: y :: ys).flatten) pre.length
              (pre.length + x.length) = x := by
            simp only [sliceSpan, List.flatten_cons, List.drop_left,
              Nat.add_sub_cancel_left]
            exact List.take_left x (y :: ys).flatten
          have hrest : slicePayloads (pre ++ (x :: y :: ys).flatten)
              (offsetsFrom (pre.length + x.length) (y :: ys)) = y :: ys := by
            have hlen : (pre ++ x).length = pre.length + x.length := by
              simp
            have hreg : pre ++ (x :: y :: ys).flatten
                = (pre ++ x) ++ (y :: ys).flatten := by
              simp [List.flatten_cons]
            rw [hreg, ← hlen]
            exact ih (pre ++ x) (by simp)
          calc slicePayloads (pre ++ (x :: y :: ys).flatten)
                (offsetsFrom pre.length (x :: y :: ys))
              = sliceSpan (pre ++ (x :: y :: ys).flatten) pre.length
                  (pre.length + x.length)
                :: slicePayloads (pre ++ (x :: y :: ys).flatten)
                  (offsetsFrom (pre.length + x.length) (y :: ys)) := by
                simp only [offsetsFrom, slicePayloads]
            _ = x :: (y :: ys) := by rw [hfirst, hrest]

/-- Decoding the encoded region of a (well-formed) list of byte lists
recovers the list. -/
theorem decodeListRegion_encode (xss : List (List Nat))
    (hfit : 4 * xss.length + xss.flatten.length < 2 ^ 32) :
    decodeListRegion
        ((offsetsFrom (4 * xss.length) xss).flatMap le32enc ++ xss.flatten)
      = .ok xss := by
  cases xss with
  | nil => rfl
  | cons x xs =>
      have hfit' : 4 * (xs.length + 1) + (x.length + xs.flatten.length)
          < 2 ^ 32 := by
        simpa using hfit
      have h32 : 4 * (xs.length + 1) < 2 ^ 32 := by omega
      have hstream : (offsetsFrom (4 * (x :: xs).length) (x :: xs)).flatMap
            le32enc ++ (x :: xs).flatten
          = (4 * (xs.length + 1)) % 256
              :: ((4 * (xs.length + 1)) / 256 % 256)
              :: ((4 * (xs.length + 1)) / 65536 % 256)
              :: ((4 * (xs.length + 1)) / 16777216 % 256)
              :: ((offsetsFrom (4 * (xs.length + 1) + x.length) xs).flatMap
                    le32enc ++ (x :: xs).flatten) := by
        simp [offsetsFrom, le32enc, Nat.mul_add]
      have htable : readOffsets xs.length (4 * (xs.length + 1))
            ((offsetsFrom (4 * (xs.length + 1) + x.length) xs).flatMap
              le32enc ++ (x :: xs).flatten)
          = (.ok (offsetsFrom (4 * (xs.length + 1) + x.length) xs),
              (x :: xs).flatten) := by
        apply readOffsets_encoded
        · exact length_offsetsFrom _ _
        · intro o ho
          have := offsetsFrom_le xs (4 * (xs.length + 1) + x.length) o ho
          omega
        · exact offsetsOrdered_offsetsFrom xs _ _ (Nat.le_add_right _ _)
      have hslice : slicePayloads
            ((offsetsFrom (4 * (x :: xs).length) (x :: xs)).flatMap le32enc
              ++ (x :: xs).flatten)
            (offsetsFrom (4 * (x :: xs).length) (x :: xs)) = x :: xs := by
        have hpre : ((offsetsFrom (4 * (x :: xs).length) (x :: xs)).flatMap
            le32enc).length = 4 * (x :: xs).length := by
          rw [length_flatMap_le32enc, length_offsetsFrom]
        have := slicePayloads_offsetsFrom (x :: xs)
          ((offsetsFrom (4 * (x :: xs).length) (x :: xs)).flatMap le32enc)
          (by simp)
        rwa [hpre] at this
      rw [hstream]
      unfold decodeListRegion
      rw [if_neg (by simp), if_neg (by simp)]
      simp only [le32v_le32enc _ h32]
      rw [if_neg (by simp [Nat.mul_mod_right])]
      have hdiv4 : 4 * (xs.length + 1) / 4 = xs.length + 1 := by omega
      rw [hdiv4, if_neg (by simp), Nat.add_sub_cancel, htable]
      rw [← hstream]
      simpa [offsetsFrom, Nat.mul_add] using hslice

/-- **C2.** Round-trip: for every supported, well-formed object value,
decoding the bytes produced by encoding it — with the byte budget set to
the encoded length — yields the value back, for static (scalars, fixed
blobs) and dynamic (byte lists, offset-table lists) objects alike. -/
theorem decode_encode (v : Value) (h : wf v = true) :
    decode (schemaOf v) (encode v) (encode v).length = .ok v := by
  cases v with
  | u32 v =>
      have hv : v < 2 ^ 32 := by simpa [wf] using h
      simp [encode, decode, schemaOf, le32enc, le32v_le32enc v hv]
  | u64 v =>
      have hv : v < 2 ^ 64 := by simpa [wf] using h
      simp [encode, decode, schemaOf, le64enc, le64v_le64enc v hv]
  | bytesN n bs =>
      have hv : bs.length = n := by simpa [wf] using h
      simp [encode, decode, schemaOf, ← hv, List.take_length]
  | byteList bs =>
      simp [encode, decode, schemaOf, List.take_length]
  | byteListList xss =>
      have hv : 4 * xss.length + xss.flatten.length < 2 ^ 32 := by
        simpa [wf] using h
      simp only [encode, decode, schemaOf, le_refl, if_pos, List.take_length]
      rw [decodeListRegion_encode xss hv]
      rfl

/-- Witness for C2 on a dynamic two-element list of byte lists. -/
theorem decode_encode_witness :
    wf (.byteListList [[170], [187, 188]]) = true ∧
    decode (schemaOf (.byteListList [[170], [187, 188]]))
        (encode (.byteListList [[170], [187, 188]]))
        (encode (.byteListList [[170], [187, 188]])).length
      = .ok (.byteListList [[170], [187, 188]]) :=
  ⟨by decide, decode_encode (.byteListList [[170], [187, 188]]) (by decide)⟩

/-- Witness for C4: 64 declared items (first offset 256) followed by a
table of 63 zero offsets — the second offset 0 drops below 256. -/
theorem DecodeSlice_offset_ordering_witness :
    offsetsOrdered (4 * ((List.replicate 63 0).length + 1))
        (List.replicate 63 0) = false ∧
    ∃ p c,
      (DecodeSlice
          (le32enc (4 * ((List.replicate 63 0).length + 1))
            ++ ((List.replicate 63 0).flatMap le32enc ++ [])) "blob" 4 64).1
        = .error (.offsetOrderingViolation p c) :=
  ⟨by decide,
    DecodeSlice_offset_ordering "blob" (List.replicate 63 0) [] 64 4
      (by decide) (by decide) (by decide) (by decide) (by decide) (by decide)⟩

/-- A single encode step on an errored context does nothing. -/
theorem encStep_of_isSome (enc : Encoder) (op : EncOp)
    (h : enc.err.isSome = true) : encStep enc op = enc := by
  cases op <;> simp [encStep, h]

/-- An entire encode run on an errored context does nothing. -/
theorem runEncOps_of_isSome (enc : Encoder) (h : enc.err.isSome = true) :
    ∀ ops : List EncOp, runEncOps enc ops = enc := by
  intro ops
  induction ops with
  | nil => rfl
  | cons op ops ih =>
      show runEncOps (encStep enc op) ops = enc
      rw [encStep_of_isSome enc op h]
      exact ih

/-- A single decode step on an errored context does nothing. -/
theorem decStep_of_isSome (dec : Decoder) (op : DecOp)
    (h : dec.err.isSome = true) : decStep dec op = dec := by
  cases op <;> simp [decStep, h]

/-- An entire decode run on an errored context does nothing. -/
theorem runDecOps_of_isSome (dec : Decoder) (h : dec.err.isSome = true) :
    ∀ ops : List DecOp, runDecOps dec ops = dec := by
  intro ops
  induction ops with
  | nil => rfl
  | cons op ops ih =>
      show runDecOps (decStep dec op) ops = dec
      rw [decStep_of_isSome dec op h]
      exact ih

/-- **C7.** The error slot is a write-once latch, for encoders and
decoders alike: a run on a context whose slot is set is a no-op (sink,
source and budget untouched, slot unchanged — so a later error never
overwrites it); whenever a step first produces error `e`, the whole
remaining run finishes with exactly `e`; and the top-level `Encode` and
`Decode` calls return (normally — every function here is total) precisely
the error slot their run left behind. -/
theorem error_latch (enc : Encoder) (ops pre : List EncOp) (op : EncOp)
    (dec : Decoder) (dops dpre : List DecOp) (dop : DecOp) (e e' : Err)
    (pool : List Encoder) (dpool : List Decoder) (w r : List Nat)
    (size : Nat) :
    (enc.err.isSome = true → runEncOps enc ops = enc) ∧
    (dec.err.isSome = true → runDecOps dec dops = dec) ∧
    ((encStep (runEncOps enc pre) op).err = some e →
      (runEncOps enc (pre ++ op :: ops)).err = some e) ∧
    ((decStep (runDecOps dec dpre) dop).err = some e' →
      (runDecOps dec (dpre ++ dop :: dops)).err = some e') ∧
    (Encode pool w (fun c => runEncOps c ops)).1
      = (runEncOps ⟨w, none⟩ ops).err ∧
    (Decode dpool r size (fun c => runDecOps c dops)).1
      = (runDecOps ⟨r, size, none⟩ dops).err := by
  refine ⟨fun h => runEncOps_of_isSome enc h ops,
    fun h => runDecOps_of_isSome dec h dops, ?_, ?_, rfl, rfl⟩
  · intro h
    have hrun : runEncOps enc (pre ++ op :: ops)
        = runEncOps (encStep (runEncOps enc pre) op) ops := by
      simp [runEncOps, List.foldl_append]
    rw [hrun, runEncOps_of_isSome _ (by simp [h]) ops, h]
  · intro h
    have hrun : runDecOps dec (dpre ++ dop :: dops)
        = runDecOps (decStep (runDecOps dec dpre) dop) dops := by
      simp [runDecOps, List.foldl_append]
    rw [hrun, runDecOps_of_isSome _ (by simp [h]) dops, h]

/-- Witness for C7: concrete runs on already-errored contexts are no-ops,
and a concrete error raised mid-run survives later errors and writes. -/
theorem error_latch_witness :
    (runEncOps ⟨[7], some .readFailure⟩
        [.write [1], .fail (.shortOffset 1)] = ⟨[7], some .readFailure⟩) ∧
    (runDecOps ⟨[1, 2], 5, some .readFailure⟩ [.read 1]
      = ⟨[1, 2], 5, some .readFailure⟩) ∧
    (runEncOps ⟨[], none⟩
        ([.write [3]] ++ .fail (.shortOffset 9)
          :: [.write [1], .fail (.shortOffset 1)])).err
      = some (.shortOffset 9) := by
  have h := error_latch ⟨[], none⟩ [.write [1], .fail (.shortOffset 1)]
    [.write [3]] (.fail (.shortOffset 9)) ⟨[1, 2], 5, some .readFailure⟩
    [.read 1] [] (.read 0) (.shortOffset 9) .readFailure [] [] [] [] 0
  have h' := error_latch ⟨[7], some .readFailure⟩
    [.write [1], .fail (.shortOffset 1)] [] (.write [])
    ⟨[1, 2], 5, some .readFailure⟩ [.read 1] [] (.read 0) .readFailure
    .readFailure [] [] [] [] 0
  exact ⟨h'.1 (by decide), h'.2.1 (by decide), h.2.2.1 (by decide)⟩

/-- **C8.** `Encode` and `Decode` release the context they used back to
the pool unconditionally — the finished context heads the returned pool
whatever the capability did, so the pool never shrinks — and return
exactly the error slot of that context, `none` on success. -/
theorem pooled_release_and_error (pool : List Encoder)
    (dpool : List Decoder) (w r : List Nat) (size : Nat)
    (f : Encoder → Encoder) (g : Decoder → Decoder) :
    (Encode pool w f).2 = f ⟨w, none⟩ :: (encoderPoolGet pool).2 ∧
    (Encode pool w f).2.length = max pool.length 1 ∧
    (Encode pool w f).1 = (f ⟨w, none⟩).err ∧
    (Decode dpool r size g).2 = g ⟨r, size, none⟩ :: (decoderPoolGet dpool).2 ∧
    (Decode dpool r size g).2.length = max dpool.length 1 ∧
    (Decode dpool r size g).1 = (g ⟨r, size, none⟩).err := by
  refine ⟨rfl, ?_, rfl, rfl, ?_, rfl⟩
  · cases pool <;> simp [Encode, encoderPoolGet]
  · cases dpool <;> simp [Decode, decoderPoolGet]

/-- **C9.** Pooled contexts are reset before use: the context handed to
the capability method is fully determined by the call's own arguments —
sink rebound and error cleared by `Encode`, source, budget and error
rebound by `Decode` — whatever stale fields the recycled context carried,
and consequently the outcome of a call never depends on the pool's
history. -/
theorem context_reset (stale stale' : Encoder) (dstale dstale' : Decoder)
    (pool pool' : List Encoder) (dpool dpool' : List Decoder)
    (w r : List Nat) (size : Nat)
    (f : Encoder → Encoder) (g : Decoder → Decoder) :
    ({ stale with out := w, err := none } : Encoder)
      = { stale' with out := w, err := none } ∧
    ({ stale with out := w, err := none } : Encoder).err = none ∧
    ({ stale with out := w, err := none } : Encoder).out = w ∧
    ({ dstale with input := r, length := size, err := none } : Decoder)
      = { dstale' with input := r, length := size, err := none } ∧
    ({ dstale with input := r, length := size, err := none } : Decoder).err
      = none ∧
    ({ dstale with input := r, length := size, err := none } : Decoder).input
      = r ∧
    ({ dstale with input := r, length := size, err := none } : Decoder).length
      = size ∧
    (Encode pool w f).1 = (Encode pool' w f).1 ∧
    (Decode dpool r size g).1 = (Decode dpool' r size g).1 :=
  ⟨rfl, rfl, rfl, rfl, rfl, rfl, rfl, rfl, rfl⟩

end SSZ
